import Mathlib

set_option maxRecDepth 4000

/-!
Verification of the `phonemizer` pipeline (`src/phonemizer/phonemizer.py`).

Strings are modelled as `List Char`.  The external festival engine
(`Phonemizer._process`, a subprocess invocation) is a black box and is
modelled as an abstract function `proc : List Char → List Char` from the
preprocessed text blob to the raw engine output; a deterministic per-line
stub engine is built from a line function with `lineWise`.  The lazy
`itertools.chain` object produced on the parallel path is modelled as the
list of its elements.  Python exceptions are modelled with `Except Err`.
The logger attribute `self._log` is modelled by a boolean state (present
or `None`) together with the list of emitted log events.
-/

namespace Phon

/-- Characters stripped by Python's `str.strip()` (string whitespace). -/
def pySpace (c : Char) : Bool :=
  c = ' ' || c = '\t' || c = '\n' || c = '\r' || c = '\x0b' || c = '\x0c'

/-- Python `s.strip()`: remove leading and trailing whitespace characters. -/
def pyStrip (l : List Char) : List Char :=
  ((l.dropWhile pySpace).reverse.dropWhile pySpace).reverse

/-- Python `s.split('\n')`: split on every newline; `"".split('\n') = [""]`. -/
def splitNl : List Char → List (List Char)
  | [] => [[]]
  | c :: cs =>
    if c = '\n' then [] :: splitNl cs
    else (c :: (splitNl cs).headI) :: (splitNl cs).tail

/-- Python `sep.join(xs)`. -/
def pyJoin (sep : List Char) : List (List Char) → List Char
  | [] => []
  | [x] => x
  | x :: y :: xs => x ++ sep ++ pyJoin sep (y :: xs)

/-- Concatenation of the images of `g`, in order (Python nested loops). -/
def flatMapL (g : α → List β) : List α → List β
  | [] => []
  | a :: as => g a ++ flatMapL g as

/-- Concatenation of a list of lists, in order (`itertools.chain`). -/
def flattenL : List (List α) → List α
  | [] => []
  | x :: xs => x ++ flattenL xs

/-- The dynamic `text` argument of `phonemize`: a Python string or a list
of strings (the code dispatches on `isinstance(text, str)`). -/
inductive PyText where
  | str : List Char → PyText
  | lst : List (List Char) → PyText
deriving DecidableEq

/-- `_str2list` of the source: `s.strip().split('\n')` for a string,
identity for a list. -/
def _str2list : PyText → List (List Char)
  | .str s => splitNl (pyStrip s)
  | .lst l => l

/-- `_list2str` of the source: identity for a string, `'\n'.join` for a
list. -/
def _list2str : PyText → List Char
  | .str s => s
  | .lst l => pyJoin ['\n'] l

/-- Test for the list shape (`isinstance(text, str)` negated). -/
def isLst : PyText → Bool
  | .str _ => false
  | .lst _ => true

/-- Python exceptions that the modelled code can raise. -/
inductive Err where
  | indexErr
  | typeErr
  | attrErr
  | synErr
  | zeroDivErr
  | fuelErr
deriving DecidableEq

/-- Modelled from the spec: the nested list-of-lists value produced by the
external symbolic-expression parsing capability (`lispy.parse`, not part
of `src/`).  Atoms are kept as their token text (the numeric-token
conversion of the external library is not modelled; no claim inspects a
tag atom). -/
inductive Sexp where
  | atom : List Char → Sexp
  | list : List Sexp → Sexp

/-- Modelled from the spec: tokenizer step of the external expression
reader, padding parentheses with spaces. -/
def expandParens (l : List Char) : List Char :=
  flatMapL (fun c =>
    if c = '(' then [' ', '(', ' ']
    else if c = ')' then [' ', ')', ' ']
    else [c]) l

/-- Split on whitespace characters, keeping empty pieces (helper for the
whitespace `split()` used by the tokenizer). -/
def splitSp : List Char → List (List Char)
  | [] => [[]]
  | c :: cs =>
    if pySpace c then [] :: splitSp cs
    else (c :: (splitSp cs).headI) :: (splitSp cs).tail

/-- Modelled from the spec: tokenization of one line for the external
expression reader (pad parentheses, split on whitespace, drop empties). -/
def tokenize (l : List Char) : List (List Char) :=
  (splitSp (expandParens l)).filter (fun t => t != [])

mutual

/-- Modelled from the spec: read one expression from the token list.
Fuel-driven model of the recursive reader; `.synErr` models the reader's
explicit syntax failures (unexpected EOF before any token, unexpected
`)`), `.indexErr` the indexing-range error raised when the token list is
exhausted inside an open list (the unbalanced-parenthesis case). -/
def readExpr : Nat → List (List Char) → Except Err (Sexp × List (List Char))
  | 0, _ => .error .fuelErr
  | _ + 1, [] => .error .synErr
  | fuel + 1, t :: ts =>
    if t = ['('] then
      match readSeq fuel ts with
      | .ok (es, ts') => .ok (.list es, ts')
      | .error e => .error e
    else if t = [')'] then .error .synErr
    else .ok (.atom t, ts)

/-- Modelled from the spec: read expressions up to the closing `)`. -/
def readSeq : Nat → List (List Char) → Except Err (List Sexp × List (List Char))
  | 0, _ => .error .fuelErr
  | _ + 1, [] => .error .indexErr
  | fuel + 1, t :: ts =>
    if t = [')'] then .ok ([], ts)
    else
      match readExpr fuel (t :: ts) with
      | .ok (e, ts') =>
        match readSeq fuel ts' with
        | .ok (es, ts'') => .ok (e :: es, ts'')
        | .error e2 => .error e2
      | .error e => .error e
end

/-- Modelled from the spec: `lispy.parse` — tokenize one line and read the
first expression, ignoring trailing tokens.  The fuel bound exceeds the
number of reader calls possible on the token list. -/
def parseE (l : List Char) : Except Err Sexp :=
  match readExpr (2 * (tokenize l).length + 2) (tokenize l) with
  | .ok (e, _) => .ok e
  | .error e => .error e

/-- The `Separator` named tuple of the source: word, syllable and phone
separator strings. -/
structure Separator where
  word : List Char
  syllable : List Char
  phone : List Char
deriving DecidableEq

/-- The configuration attributes read by the flattener: `self.separator`
and `self.strip_separator`. -/
structure Cfg where
  separator : Separator
  strip_separator : Bool
deriving DecidableEq

/-- `Phonemizer.default_separator = Separator(' ', '|', '-')`. -/
def defaultSeparator : Separator := ⟨[' '], ['|'], ['-']⟩

/-- The constructor defaults: default separator, `strip_separator = False`. -/
def defaultCfg : Cfg := ⟨defaultSeparator, false⟩

/-- Python `x[0]` on a parsed value: first element of a list, first
character of an atom string; raises IndexError when empty. -/
def pyIdx0 : Sexp → Except Err Sexp
  | .atom [] => .error .indexErr
  | .atom (c :: _) => .ok (.atom [c])
  | .list [] => .error .indexErr
  | .list (x :: _) => .ok x

/-- Python `x[1:]` on a parsed value: drop the first list element, or
slice an atom string into its remaining characters. -/
def sexpTail : Sexp → List Sexp
  | .atom s => (s.drop 1).map (fun c => .atom [c])
  | .list xs => xs.drop 1

/-- Python iteration `for w in x`: the elements of a list, the characters
of an atom string. -/
def sexpIter : Sexp → List Sexp
  | .atom s => s.map (fun c => .atom [c])
  | .list xs => xs

/-- `phone[0][0].replace('"', '')` of `_postprocess_syll`: extract the
phone label and strip double quotes; `.replace` on a non-string raises. -/
def phoneLabel (phone : Sexp) : Except Err (List Char) :=
  match pyIdx0 phone with
  | .error e => .error e
  | .ok x =>
    match pyIdx0 x with
    | .error e => .error e
    | .ok (.atom s) => .ok (s.filter (fun c => c != '"'))
    | .ok (.list _) => .error .attrErr

/-- Python list comprehension with exception propagation: map `g`, stop at
the first raised exception. -/
def mapME (g : α → Except Err β) : List α → Except Err (List β)
  | [] => .ok []
  | a :: as =>
    match g a with
    | .error e => .error e
    | .ok b =>
      match mapME g as with
      | .error e => .error e
      | .ok bs => .ok (b :: bs)

/-- `Phonemizer._postprocess_syll`: join the nonempty phone labels of
`syll[1:]` with the phone separator, appending one trailing phone
separator unless `strip_separator`. -/
def _postprocess_syll (cfg : Cfg) (syll : Sexp) : Except Err (List Char) :=
  match mapME phoneLabel (sexpTail syll) with
  | .error e => .error e
  | .ok labels =>
    let out := pyJoin cfg.separator.phone (labels.filter (fun o => o != []))
    .ok (if cfg.strip_separator then out else out ++ cfg.separator.phone)

/-- `Phonemizer._postprocess_word`: join the flattened syllables of
`word[1:]` with the syllable separator, appending one trailing syllable
separator unless `strip_separator`. -/
def _postprocess_word (cfg : Cfg) (word : Sexp) : Except Err (List Char) :=
  match mapME (_postprocess_syll cfg) (sexpTail word) with
  | .error e => .error e
  | .ok outs =>
    let out := pyJoin cfg.separator.syllable outs
    .ok (if cfg.strip_separator then out else out ++ cfg.separator.syllable)

/-- The word loop and join of `Phonemizer._postprocess_line` applied to an
already-parsed tree: flatten every word, keep the nonempty results, join
with the word separator, appending one trailing word separator unless
`strip_separator`. -/
def lineFlattenE (cfg : Cfg) (tree : Sexp) : Except Err (List Char) :=
  match mapME (_postprocess_word cfg) (sexpIter tree) with
  | .error e => .error e
  | .ok ws =>
    let out := pyJoin cfg.separator.word (ws.filter (fun w => w != []))
    .ok (if cfg.strip_separator then out else out ++ cfg.separator.word)

/-- `Phonemizer._postprocess_line`: parse the raw line, then flatten it. -/
def _postprocess_line (cfg : Cfg) (line : List Char) : Except Err (List Char) :=
  match parseE line with
  | .error e => .error e
  | .ok tree => lineFlattenE cfg tree

/-- The empty-utterance marker `'(nil nil nil)'` dropped by
`_postprocess`. -/
def sentinel : List Char := "(nil nil nil)".data

/-- The line filter of `_postprocess`: `line not in ['', '(nil nil nil)']`. -/
def keepB (l : List Char) : Bool :=
  !(l == []) && !(l == sentinel)

/-- Propagate an exception, otherwise filter the result list (helper for
the final comprehensions of `_postprocess`/`_phonemize`). -/
def withFilter (p : List Char → Bool) :
    Except Err (List (List Char)) → Except Err (List (List Char))
  | .error e => .error e
  | .ok c => .ok (c.filter p)

/-- `Phonemizer._postprocess`: split the raw engine output into lines,
drop empty and sentinel lines, flatten each remaining line. -/
def _postprocess (cfg : Cfg) (tree : List Char) : Except Err (List (List Char)) :=
  mapME (_postprocess_line cfg) ((splitNl tree).filter keepB)

/-- `Phonemizer._cleaned`: replace `"` by `'`, remove `(` and `)`. -/
def _cleaned (l : List Char) : List Char :=
  (l.map (fun c => if c = '"' then '\'' else c)).filter
    (fun c => !(c == '(') && !(c == ')'))

/-- `Phonemizer._double_quoted`: surround the line with double quotes. -/
def _double_quoted (l : List Char) : List Char :=
  '"' :: l ++ ['"']

/-- `Phonemizer._preprocess`: clean and double-quote every nonempty line,
join with newlines. -/
def _preprocess (text : List Char) : List Char :=
  pyJoin ['\n']
    (((splitNl text).filter (fun l => l != [])).map
      (fun l => _double_quoted (_cleaned l)))

/-- `Phonemizer._phonemize` with the engine invocation abstracted by
`proc`: preprocess, run the engine, postprocess, drop results that strip
to the empty string. -/
def _phonemize (proc : List Char → List Char) (cfg : Cfg) (text : List Char) :
    Except Err (List (List Char)) :=
  withFilter (fun line => pyStrip line != [])
    (_postprocess cfg (proc (_preprocess text)))

/-- Python `range(start, stop, step)` as a list, driven by enough fuel
(`step` iterations always advance when positive). -/
def pyRangeAux : Nat → Nat → Nat → Nat → List Nat
  | 0, _, _, _ => []
  | fuel + 1, start, stop, step =>
    if start < stop then start :: pyRangeAux fuel (start + step) stop step else []

/-- Python `range(start, stop, step)` for a positive step (`_chunks` only
uses `step = max(1, ...) ≥ 1`). -/
def pyRange (start stop step : Nat) : List Nat :=
  pyRangeAux (stop - start) start stop step

/-- The line slices produced by `Phonemizer._chunks` before re-joining:
`size = max(1, len(text)/n)` (truncating division) computed once, then
`text[i:i+size]` for `i in range(0, len(text), size)`. -/
def chunkSlices (l : List (List Char)) (n : Nat) : List (List (List Char)) :=
  (pyRange 0 l.length (max 1 (l.length / n))).map
    (fun i => (l.drop i).take (max 1 (l.length / n)))

/-- `Phonemizer._chunks`: normalize the text to a list of lines, slice it,
and return each chunk re-joined by `_list2str`. -/
def _chunks (text : PyText) (n : Nat) : List (List Char) :=
  (chunkSlices (_str2list text) n).map (pyJoin ['\n'])

/-- Log events emitted through `self._log`. -/
inductive LogEv where
  | info
  | debug
deriving DecidableEq

/-- The mutable state of a `Phonemizer` instance observed by `phonemize`:
whether `self._log` is a logger (`true`) or `None` (`false`). -/
structure PhState where
  log : Bool
deriving DecidableEq

/-- The output formatting of `phonemize`:
`_list2str(out) if isinstance(text, str) else out`. -/
def fmtOut : PyText → List (List Char) → PyText
  | .str _, out => .str (pyJoin ['\n'] out)
  | .lst _, out => .lst out

/-- `Phonemizer.phonemize`: log (raising on `text.split()` when `text` is
a list, and on `None.debug` when `njobs > 1` without a logger), then either
run `_phonemize` once on the text forced as a string, or disable the
logger, run `_phonemize` on every chunk and concatenate the chunk outputs
in order.  Returns the result, the instance state after the call, and the
emitted log events. -/
def phonemize (proc : List Char → List Char) (cfg : Cfg) (st : PhState)
    (text : PyText) (njobs : Nat) :
    Except Err ((PyText × PhState) × List LogEv) :=
  if st.log && isLst text then .error .attrErr
  else
    let evs := if st.log then [LogEv.info] else []
    if njobs = 1 then
      match _phonemize proc cfg (_list2str text) with
      | .error e => .error e
      | .ok out => .ok ((fmtOut text out, st), evs)
    else if st.log = false then .error .attrErr
    else if njobs = 0 then .error .zeroDivErr
    else
      match mapME (_phonemize proc cfg) (_chunks text njobs) with
      | .error e => .error e
      | .ok outs =>
        .ok ((fmtOut text (flattenL outs), { log := false }), evs ++ [LogEv.debug])

/-- A deterministic stub engine built from a per-line function: festival
emits one tree line per utterance line of its input, and nothing on empty
input. -/
def lineWise (f : List Char → List Char) (blob : List Char) : List Char :=
  if blob = [] then [] else pyJoin ['\n'] ((splitNl blob).map f)

/-- The contribution of one input line to the pipeline output under a
per-line stub engine: sanitize the line, run the line function, postprocess
its output lines, drop the results that strip to the empty string. -/
def lineRunE (f : List Char → List Char) (cfg : Cfg) (l : List Char) :
    Except Err (List (List Char)) :=
  withFilter (fun line => pyStrip line != [])
    (_postprocess cfg (f (_double_quoted (_cleaned l))))

/-- Sequential concatenation of `Except`-valued list outputs, stopping at
the first raised exception. -/
def flatMapE (g : α → Except Err (List β)) : List α → Except Err (List β)
  | [] => .ok []
  | a :: as =>
    match g a with
    | .error e => .error e
    | .ok b =>
      match flatMapE g as with
      | .error e => .error e
      | .ok bs => .ok (b ++ bs)

/-- The single-pass (`njobs == 1`) output sequence of `phonemize`:
`self._phonemize(_list2str(text))`. -/
def monoOut (proc : List Char → List Char) (cfg : Cfg) (text : PyText) :
    Except Err (List (List Char)) :=
  _phonemize proc cfg (_list2str text)

/-- Propagate an exception, otherwise concatenate the per-chunk output
lists in order (`itertools.chain(*out)`). -/
def exFlatten : Except Err (List (List β)) → Except Err (List β)
  | .error e => .error e
  | .ok outs => .ok (flattenL outs)

/-- The parallel (`njobs > 1`) output sequence of `phonemize`: run
`_phonemize` on every chunk and concatenate the per-chunk outputs in chunk
order (`itertools.chain`). -/
def parallelOut (proc : List Char → List Char) (cfg : Cfg) (text : PyText)
    (n : Nat) : Except Err (List (List Char)) :=
  exFlatten (mapME (_phonemize proc cfg) (_chunks text n))

/-- The input lines actually fed to the pipeline: for one job the lines of
the text forced as a string, for several jobs the lines of the stripped
and re-split text, empty lines dropped in both cases. -/
def processedLines (text : PyText) (n : Nat) : List (List Char) :=
  if n = 1 then (splitNl (_list2str text)).filter (fun l => l != [])
  else (flatMapL splitNl (_str2list text)).filter (fun l => l != [])

/-- Inputs on which `_str2list ∘ _list2str` loses nothing: any list, or a
string equal to its own strip. -/
def stripSafe : PyText → Prop
  | .str s => pyStrip s = s
  | .lst _ => True

/-- Quote stripping applied to phone labels (`**.replace('"', '')`). -/
def stripQ (l : List Char) : List Char :=
  l.filter (fun c => c != '"')

/-- A syllable of a well-formed parsed tree: a tag followed by phone
entries, each phone carrying its label as first element of its first
element. -/
structure SyllS where
  tag : Sexp
  phones : List (List Char)

/-- A word of a well-formed parsed tree: a tag followed by syllables. -/
structure WordS where
  tag : Sexp
  sylls : List SyllS

/-- The tree shape of one phone entry: `((label))`. -/
def mkPhone (p : List Char) : Sexp :=
  .list [.list [.atom p]]

/-- The tree shape of one syllable: `(tag phone+)`. -/
def SyllS.toSexp (s : SyllS) : Sexp :=
  .list (s.tag :: s.phones.map mkPhone)

/-- The tree shape of one word: `(tag syllable+)`. -/
def WordS.toSexp (w : WordS) : Sexp :=
  .list (w.tag :: w.sylls.map SyllS.toSexp)

/-- The tree shape of one parsed line: the list of its words. -/
def lineToSexp (ws : List WordS) : Sexp :=
  .list (ws.map WordS.toSexp)

/-- Well-formedness of a parsed line: at least one word, every word with
at least one syllable, every syllable with at least one phone, every phone
label nonempty after quote stripping. -/
def WFline (ws : List WordS) : Prop :=
  0 < ws.length ∧ ∀ w ∈ ws, 0 < w.sylls.length ∧
    ∀ s ∈ w.sylls, 0 < s.phones.length ∧ ∀ p ∈ s.phones, stripQ p ≠ []

/-- The flattening shape claimed for `strip_separator = False`: one phone
separator after every phone, one syllable separator after every syllable,
one word separator after every word, trailing occurrences included. -/
def specFlatTrailing (sep : Separator) (ws : List WordS) : List Char :=
  flatMapL (fun w =>
    flatMapL (fun s =>
      flatMapL (fun p => stripQ p ++ sep.phone) s.phones ++ sep.syllable)
      w.sylls ++ sep.word) ws

/-- The flattening shape claimed for `strip_separator = True`: plain
separator joins with no trailing separator at any level. -/
def specFlatStripped (sep : Separator) (ws : List WordS) : List Char :=
  pyJoin sep.word (ws.map (fun w =>
    pyJoin sep.syllable (w.sylls.map (fun s =>
      pyJoin sep.phone (s.phones.map stripQ)))))

/-- A raw tree line whose single phone label is `x`. -/
def treeX : List Char := "((wt (st ((\"x\")))))".data

/-- A raw tree line whose single phone label is `y`. -/
def treeY : List Char := "((wt (st ((\"y\")))))".data

/-- A deterministic per-line stub engine that distinguishes the sanitized
line `" a"` (leading space kept) from every other line. -/
def engX (l : List Char) : List Char :=
  if l = ('"' :: ' ' :: 'a' :: ['"']) then treeX else treeY

theorem splitNl_ne_nil (s : List Char) : splitNl s ≠ [] := by
  cases s with
  | nil => simp [splitNl]
  | cons c cs => simp only [splitNl]; split <;> simp

theorem splitNl_append_nl (a b : List Char) :
    splitNl (a ++ '\n' :: b) = splitNl a ++ splitNl b := by
  induction a with
  | nil => simp [splitNl]
  | cons c cs ih =>
    by_cases hc : c = '\n'
    · subst hc; simp [splitNl, ih]
    · simp only [List.cons_append, splitNl, List.append_eq, if_neg hc]
      rw [ih]
      obtain ⟨x, xs, h⟩ := List.exists_cons_of_ne_nil (splitNl_ne_nil cs)
      rw [h]
      simp

theorem mem_splitNl_no_nl (s : List Char) : ∀ l ∈ splitNl s, '\n' ∉ l := by
  induction s with
  | nil => simp [splitNl]
  | cons c cs ih =>
    intro l hl
    by_cases hc : c = '\n'
    · subst hc
      have hsp : splitNl ('\n' :: cs) = [] :: splitNl cs := by simp [splitNl]
      rw [hsp] at hl
      rcases List.mem_cons.mp hl with rfl | hl
      · simp
      · exact ih l hl
    · obtain ⟨x, xs, h⟩ := List.exists_cons_of_ne_nil (splitNl_ne_nil cs)
      simp only [splitNl, if_neg hc, h, List.headI, List.tail, List.mem_cons] at hl
      rcases hl with rfl | hl
      · intro hmem
        rcases List.mem_cons.mp hmem with h1 | h1
        · exact hc h1.symm
        · exact ih x (h ▸ List.mem_cons_self x xs) h1
      · exact ih l (h ▸ List.mem_cons_of_mem x hl)

theorem splitNl_eq_single (l : List Char) (h : '\n' ∉ l) : splitNl l = [l] := by
  induction l with
  | nil => simp [splitNl]
  | cons c cs ih =>
    have hc : c ≠ '\n' := fun hh => h (hh ▸ List.mem_cons_self c cs)
    have hcs : '\n' ∉ cs := fun hh => h (List.mem_cons_of_mem c hh)
    simp [splitNl, if_neg hc, ih hcs]

theorem splitNl_pyJoin (xs : List (List Char)) (h : xs ≠ []) :
    splitNl (pyJoin ['\n'] xs) = flatMapL splitNl xs := by
  induction xs with
  | nil => exact absurd rfl h
  | cons x t ih =>
    cases t with
    | nil => simp [pyJoin, flatMapL]
    | cons y t' =>
      have : pyJoin ['\n'] (x :: y :: t') = x ++ '\n' :: pyJoin ['\n'] (y :: t') := by
        simp [pyJoin]
      rw [this, splitNl_append_nl, ih (by simp)]
      simp [flatMapL]

theorem pyJoin_ne_nil_head (sep : List Char) (x : List Char) (xs : List (List Char))
    (h : x ≠ []) : pyJoin sep (x :: xs) ≠ [] := by
  cases xs with
  | nil => simpa [pyJoin] using h
  | cons y t => simp [pyJoin, h]

theorem pyJoin_append_sep (sep : List Char) (l : List (List Char)) (h : l ≠ []) :
    pyJoin sep l ++ sep = flatMapL (fun x => x ++ sep) l := by
  induction l with
  | nil => exact absurd rfl h
  | cons x t ih =>
    cases t with
    | nil => simp [pyJoin, flatMapL]
    | cons y t' =>
      have h2 := ih (by simp)
      show (x ++ sep ++ pyJoin sep (y :: t')) ++ sep
          = x ++ sep ++ flatMapL (fun x => x ++ sep) (y :: t')
      rw [List.append_assoc (x ++ sep), h2]

theorem flatMapL_append (g : α → List β) (l₁ l₂ : List α) :
    flatMapL g (l₁ ++ l₂) = flatMapL g l₁ ++ flatMapL g l₂ := by
  induction l₁ with
  | nil => simp [flatMapL]
  | cons a t ih => simp [flatMapL, ih]

theorem flatMapL_map (g : β → List γ) (h : α → β) (l : List α) :
    flatMapL g (l.map h) = flatMapL (fun a => g (h a)) l := by
  induction l with
  | nil => simp [flatMapL]
  | cons a t ih => simp [flatMapL, ih]

theorem flatMapL_singleton (g : α → List α) (l : List α)
    (h : ∀ a ∈ l, g a = [a]) : flatMapL g l = l := by
  induction l with
  | nil => simp [flatMapL]
  | cons a t ih =>
    simp only [flatMapL, h a (List.mem_cons_self a t)]
    rw [ih fun b hb => h b (List.mem_cons_of_mem a hb)]
    rfl

theorem filter_flatMapL (p : β → Bool) (g : α → List β) (l : List α) :
    (flatMapL g l).filter p = flatMapL (fun a => (g a).filter p) l := by
  induction l with
  | nil => simp [flatMapL]
  | cons a t ih => simp [flatMapL, List.filter_append, ih]

theorem flattenL_append (l₁ l₂ : List (List α)) :
    flattenL (l₁ ++ l₂) = flattenL l₁ ++ flattenL l₂ := by
  induction l₁ with
  | nil => simp [flattenL]
  | cons a t ih => simp [flattenL, ih]

theorem flatMapL_flattenL (g : α → List β) (ls : List (List α)) :
    flatMapL g (flattenL ls) = flatMapL (fun c => flatMapL g c) ls := by
  induction ls with
  | nil => simp [flattenL, flatMapL]
  | cons c t ih => simp [flattenL, flatMapL, flatMapL_append, ih]

theorem mapME_map (g : β → Except Err γ) (h : α → β) (l : List α) :
    mapME g (l.map h) = mapME (fun a => g (h a)) l := by
  induction l with
  | nil => rfl
  | cons a t ih => simp only [List.map_cons, mapME, ih]

theorem mapME_ok_of (g : α → Except Err β) (h : α → β) (l : List α)
    (hok : ∀ a ∈ l, g a = .ok (h a)) : mapME g l = .ok (l.map h) := by
  induction l with
  | nil => rfl
  | cons a t ih =>
    simp only [mapME, hok a (List.mem_cons_self a t),
      ih fun b hb => hok b (List.mem_cons_of_mem a hb), List.map_cons]

theorem mapME_error_of_mem (g : α → Except Err β) (l : List α) (a : α)
    (ha : a ∈ l) (e : Err) (he : g a = .error e) :
    ∃ e', mapME g l = .error e' := by
  induction l with
  | nil => exact absurd ha (List.not_mem_nil a)
  | cons b t ih =>
    cases hgb : g b with
    | error e₁ => exact ⟨e₁, by simp [mapME, hgb]⟩
    | ok v =>
      rcases List.mem_cons.mp ha with rfl | hmem
      · rw [hgb] at he; exact absurd he (by simp)
      · obtain ⟨e', he'⟩ := ih hmem
        exact ⟨e', by simp [mapME, hgb, he']⟩

theorem mapME_append (g : α → Except Err β) (l₁ l₂ : List α) :
    mapME g (l₁ ++ l₂) =
      match mapME g l₁ with
      | .error e => .error e
      | .ok b₁ =>
        match mapME g l₂ with
        | .error e => .error e
        | .ok b₂ => .ok (b₁ ++ b₂) := by
  induction l₁ with
  | nil =>
    cases h₂ : mapME g l₂ with
    | error e => simp [mapME, h₂]
    | ok b₂ => simp [mapME, h₂]
  | cons a t ih =>
    cases hga : g a with
    | error e => simp [mapME, hga]
    | ok b =>
      cases ht : mapME g t with
      | error e => simp [mapME, hga, ht, ih]
      | ok bt =>
        cases h₂ : mapME g l₂ with
        | error e => simp [mapME, hga, ht, ih, h₂]
        | ok b₂ => simp [mapME, hga, ht, ih, h₂]

theorem flatMapE_congr (g₁ g₂ : α → Except Err (List β)) (l : List α)
    (h : ∀ a ∈ l, g₁ a = g₂ a) : flatMapE g₁ l = flatMapE g₂ l := by
  induction l with
  | nil => rfl
  | cons a t ih =>
    simp only [flatMapE, h a (List.mem_cons_self a t),
      ih fun b hb => h b (List.mem_cons_of_mem a hb)]

theorem flatMapE_append (g : α → Except Err (List β)) (l₁ l₂ : List α) :
    flatMapE g (l₁ ++ l₂) =
      match flatMapE g l₁ with
      | .error e => .error e
      | .ok b₁ =>
        match flatMapE g l₂ with
        | .error e => .error e
        | .ok b₂ => .ok (b₁ ++ b₂) := by
  induction l₁ with
  | nil =>
    cases h₂ : flatMapE g l₂ with
    | error e => simp [flatMapE, h₂]
    | ok b₂ => simp [flatMapE, h₂]
  | cons a t ih =>
    cases hga : g a with
    | error e => simp [flatMapE, hga]
    | ok b =>
      cases ht : flatMapE g t with
      | error e => simp [flatMapE, hga, ht, ih]
      | ok bt =>
        cases h₂ : flatMapE g l₂ with
        | error e => simp [flatMapE, hga, ht, ih, h₂]
        | ok b₂ => simp [flatMapE, hga, ht, ih, h₂]

theorem flatMapE_map (g : β → Except Err (List γ)) (h : α → β) (l : List α) :
    flatMapE g (l.map h) = flatMapE (fun a => g (h a)) l := by
  induction l with
  | nil => rfl
  | cons a t ih => simp only [List.map_cons, flatMapE, ih]

theorem flatMapE_flatMapL (g : β → Except Err (List γ)) (k : α → List β)
    (l : List α) :
    flatMapE (fun a => flatMapE g (k a)) l = flatMapE g (flatMapL k l) := by
  induction l with
  | nil => rfl
  | cons a t ih =>
    simp only [flatMapL, flatMapE_append]
    cases hka : flatMapE g (k a) with
    | error e => simp [flatMapE, hka]
    | ok b =>
      cases ht : flatMapE g (flatMapL k t) with
      | error e =>
        simp only [flatMapE, hka]
        rw [ih, ht]
      | ok bt =>
        simp only [flatMapE, hka]
        rw [ih, ht]

theorem withFilter_flatMapE (p : List Char → Bool)
    (g : α → Except Err (List (List Char))) (l : List α) :
    withFilter p (flatMapE g l) = flatMapE (fun a => withFilter p (g a)) l := by
  induction l with
  | nil => simp [flatMapE, withFilter]
  | cons a t ih =>
    cases hga : g a with
    | error e => simp [flatMapE, withFilter, hga]
    | ok b =>
      cases ht : flatMapE g t with
      | error e =>
        have h3 : flatMapE g (a :: t) = .error e := by simp [flatMapE, hga, ht]
        have h4 : withFilter p (g a) = .ok (b.filter p) := by rw [hga]; rfl
        have h5 : flatMapE (fun x => withFilter p (g x)) t = .error e := by
          rw [← ih, ht]; rfl
        rw [h3]
        show Except.error e = _
        simp [flatMapE, h4, h5]
      | ok bt =>
        have h3 : flatMapE g (a :: t) = .ok (b ++ bt) := by simp [flatMapE, hga, ht]
        have h4 : withFilter p (g a) = .ok (b.filter p) := by rw [hga]; rfl
        have h5 : flatMapE (fun x => withFilter p (g x)) t = .ok (bt.filter p) := by
          rw [← ih, ht]; rfl
        rw [h3]
        show Except.ok ((b ++ bt).filter p) = _
        rw [List.filter_append]
        simp [flatMapE, h4, h5]

theorem exFlatten_mapME (g : α → Except Err (List β)) (l : List α) :
    exFlatten (mapME g l) = flatMapE g l := by
  induction l with
  | nil => rfl
  | cons a t ih =>
    cases hga : g a with
    | error e => simp [mapME, flatMapE, exFlatten, hga]
    | ok b =>
      cases hm : mapME g t with
      | error e =>
        have ht : flatMapE g t = .error e := by rw [← ih, hm]; rfl
        simp [mapME, flatMapE, exFlatten, hga, hm, ht]
      | ok o =>
        have ht : flatMapE g t = .ok (flattenL o) := by rw [← ih, hm]; rfl
        simp [mapME, flatMapE, exFlatten, flattenL, hga, hm, ht]

theorem mem_pyRangeAux_lt (s : Nat) :
    ∀ fuel i stop, ∀ j ∈ pyRangeAux fuel i stop s, j < stop := by
  intro fuel
  induction fuel with
  | zero => intro i stop j hj; simp [pyRangeAux] at hj
  | succ fuel ih =>
    intro i stop j hj
    simp only [pyRangeAux] at hj
    by_cases hi : i < stop
    · rw [if_pos hi] at hj
      rcases List.mem_cons.mp hj with rfl | hj
      · exact hi
      · exact ih (i + s) stop j hj
    · rw [if_neg hi] at hj; simp at hj

theorem take_ne_nil_of_pos (s : Nat) (hs : 0 < s) (l : List α) (h : l ≠ []) :
    l.take s ≠ [] := by
  cases l with
  | nil => exact absurd rfl h
  | cons a t =>
    cases s with
    | zero => exact absurd hs (by simp)
    | succ s => simp

theorem pyRangeAux_slice_flatten (s : Nat) (hs : 0 < s) :
    ∀ fuel (l : List α) i, l.length - i ≤ fuel →
      flattenL ((pyRangeAux fuel i l.length s).map (fun j => (l.drop j).take s))
        = l.drop i := by
  intro fuel
  induction fuel with
  | zero =>
    intro l i hle
    have : l.length ≤ i := by omega
    simp [pyRangeAux, flattenL, List.drop_eq_nil_of_le this]
  | succ fuel ih =>
    intro l i hle
    simp only [pyRangeAux]
    by_cases hi : i < l.length
    · rw [if_pos hi]
      simp only [List.map_cons, flattenL]
      rw [ih l (i + s) (by omega)]
      have : (l.drop i).drop s = l.drop (i + s) := List.drop_drop s i l
      rw [← this, List.take_append_drop]
    · rw [if_neg hi]
      have : l.length ≤ i := by omega
      simp [flattenL, List.drop_eq_nil_of_le this]

theorem chunkSlices_flatten (l : List (List Char)) (n : Nat) :
    flattenL (chunkSlices l n) = l := by
  have h := pyRangeAux_slice_flatten (max 1 (l.length / n)) (by simp)
    l.length l 0 (by omega)
  simpa [chunkSlices, pyRange] using h

theorem chunkSlices_ne_nil (l : List (List Char)) (n : Nat) :
    ∀ c ∈ chunkSlices l n, c ≠ [] := by
  intro c hc
  simp only [chunkSlices, pyRange, List.mem_map] at hc
  obtain ⟨j, hj, rfl⟩ := hc
  have hjlt : j < l.length := mem_pyRangeAux_lt _ _ _ _ j hj
  have hdrop : l.drop j ≠ [] := by
    intro hd
    have := List.drop_eq_nil_iff.mp hd
    omega
  exact take_ne_nil_of_pos _ (by simp) _ hdrop

/-- The nonempty lines of a text blob, as filtered by `_preprocess`. -/
def neLines (s : List Char) : List (List Char) :=
  (splitNl s).filter (fun l => l != [])

/-- One sanitized line: `_double_quoted(_cleaned(line))`. -/
def sanLine (l : List Char) : List Char :=
  _double_quoted (_cleaned l)

theorem no_nl_sanitized (l : List Char) (h : '\n' ∉ l) : '\n' ∉ sanLine l := by
  intro hmem
  rcases List.mem_cons.mp hmem with h1 | h1
  · exact absurd h1 (by decide)
  · rcases List.mem_append.mp h1 with h2 | h2
    · have h3 := List.mem_of_mem_filter h2
      obtain ⟨c, hc, heq⟩ := List.mem_map.mp h3
      by_cases hq : c = '"'
      · rw [if_pos hq] at heq; exact absurd heq (by decide)
      · rw [if_neg hq] at heq; exact h (heq ▸ hc)
    · exact absurd h2 (by decide)

theorem sanLine_ne_nil (l : List Char) : sanLine l ≠ [] := by
  simp [sanLine, _double_quoted]

theorem mapME_flatMapL (g : β → Except Err γ) (k : α → List β) (l : List α) :
    mapME g (flatMapL k l) = flatMapE (fun a => mapME g (k a)) l := by
  induction l with
  | nil => rfl
  | cons a t ih =>
    simp only [flatMapL, mapME_append]
    cases hka : mapME g (k a) with
    | error e => simp [flatMapE, hka]
    | ok b =>
      cases hmt : mapME g (flatMapL k t) with
      | error e =>
        have ht : flatMapE (fun a => mapME g (k a)) t = .error e := by rw [← ih, hmt]
        simp [flatMapE, hka, hmt, ht]
      | ok bt =>
        have ht : flatMapE (fun a => mapME g (k a)) t = .ok bt := by rw [← ih, hmt]
        simp [flatMapE, hka, hmt, ht]

theorem phonemize_lineWise_norm (f : List Char → List Char) (cfg : Cfg)
    (s : List Char) :
    _phonemize (lineWise f) cfg s = flatMapE (lineRunE f cfg) (neLines s) := by
  have hpre : _preprocess s = pyJoin ['\n'] ((neLines s).map sanLine) := rfl
  by_cases h : neLines s = []
  · rw [show _phonemize (lineWise f) cfg s
        = withFilter (fun line => pyStrip line != [])
            (_postprocess cfg (lineWise f (_preprocess s))) from rfl]
    rw [hpre, h]
    simp [pyJoin, lineWise, _postprocess, splitNl, keepB, mapME, withFilter,
      flatMapE]
  · obtain ⟨l₀, rest, hcons⟩ := List.exists_cons_of_ne_nil h
    have hnomem : ∀ l ∈ neLines s, '\n' ∉ l := fun l hl =>
      mem_splitNl_no_nl s l (List.mem_of_mem_filter hl)
    have hmapne : (neLines s).map sanLine ≠ [] := by rw [hcons]; simp
    have hsplit1 : splitNl (pyJoin ['\n'] ((neLines s).map sanLine))
        = (neLines s).map sanLine := by
      rw [splitNl_pyJoin _ hmapne]
      refine flatMapL_singleton _ _ fun x hx => ?_
      obtain ⟨l, hl, rfl⟩ := List.mem_map.mp hx
      exact splitNl_eq_single _ (no_nl_sanitized l (hnomem l hl))
    have hblob : pyJoin ['\n'] ((neLines s).map sanLine) ≠ [] := by
      rw [hcons, List.map_cons]
      exact pyJoin_ne_nil_head _ _ _ (sanLine_ne_nil l₀)
    have hlw : lineWise f (pyJoin ['\n'] ((neLines s).map sanLine))
        = pyJoin ['\n'] ((neLines s).map (fun l => f (sanLine l))) := by
      unfold lineWise
      rw [if_neg hblob, hsplit1, List.map_map]
      rfl
    have hsplit2 : splitNl (pyJoin ['\n'] ((neLines s).map (fun l => f (sanLine l))))
        = flatMapL (fun l => splitNl (f (sanLine l))) (neLines s) := by
      rw [splitNl_pyJoin _ (by rw [hcons]; simp), flatMapL_map]
    calc _phonemize (lineWise f) cfg s
        = withFilter (fun line => pyStrip line != [])
            (_postprocess cfg (lineWise f (_preprocess s))) := rfl
      _ = withFilter (fun line => pyStrip line != [])
            (_postprocess cfg
              (pyJoin ['\n'] ((neLines s).map (fun l => f (sanLine l))))) := by
            rw [hpre, hlw]
      _ = withFilter (fun line => pyStrip line != [])
            (mapME (_postprocess_line cfg)
              ((flatMapL (fun l => splitNl (f (sanLine l))) (neLines s)).filter
                keepB)) := by
            rw [show _postprocess cfg
                  (pyJoin ['\n'] ((neLines s).map (fun l => f (sanLine l))))
                = mapME (_postprocess_line cfg)
                    ((splitNl (pyJoin ['\n']
                      ((neLines s).map (fun l => f (sanLine l))))).filter keepB)
              from rfl, hsplit2]
      _ = withFilter (fun line => pyStrip line != [])
            (flatMapE (fun l => mapME (_postprocess_line cfg)
              ((splitNl (f (sanLine l))).filter keepB)) (neLines s)) := by
            rw [filter_flatMapL, mapME_flatMapL]
      _ = flatMapE (fun l => withFilter (fun line => pyStrip line != [])
            (mapME (_postprocess_line cfg)
              ((splitNl (f (sanLine l))).filter keepB))) (neLines s) :=
            withFilter_flatMapE ..
      _ = flatMapE (lineRunE f cfg) (neLines s) := rfl

theorem parallelOut_norm (f : List Char → List Char) (cfg : Cfg) (text : PyText)
    (n : Nat) :
    parallelOut (lineWise f) cfg text n
      = flatMapE (lineRunE f cfg)
          ((flatMapL splitNl (_str2list text)).filter (fun l => l != [])) := by
  have h0 : parallelOut (lineWise f) cfg text n
      = flatMapE (_phonemize (lineWise f) cfg) (_chunks text n) :=
    exFlatten_mapME _ _
  rw [h0]
  rw [show _chunks text n
      = (chunkSlices (_str2list text) n).map (pyJoin ['\n']) from rfl]
  rw [flatMapE_map]
  have hcong : flatMapE (fun c => _phonemize (lineWise f) cfg (pyJoin ['\n'] c))
      (chunkSlices (_str2list text) n)
      = flatMapE (fun c => flatMapE (lineRunE f cfg)
          ((flatMapL splitNl c).filter (fun l => l != [])))
        (chunkSlices (_str2list text) n) := by
    refine flatMapE_congr _ _ _ fun c hc => ?_
    show _phonemize (lineWise f) cfg (pyJoin ['\n'] c) = _
    rw [phonemize_lineWise_norm]
    rw [show neLines (pyJoin ['\n'] c)
        = (splitNl (pyJoin ['\n'] c)).filter (fun l => l != []) from rfl]
    rw [splitNl_pyJoin c (chunkSlices_ne_nil _ n c hc)]
  rw [hcong]
  rw [flatMapE_flatMapL]
  rw [show flatMapL (fun c => (flatMapL splitNl c).filter (fun l => l != []))
        (chunkSlices (_str2list text) n)
      = (flatMapL (fun c => flatMapL splitNl c)
          (chunkSlices (_str2list text) n)).filter (fun l => l != []) from
    (filter_flatMapL _ _ _).symm]
  rw [← flatMapL_flattenL, chunkSlices_flatten]

theorem monoOut_norm (f : List Char → List Char) (cfg : Cfg) (text : PyText) :
    monoOut (lineWise f) cfg text
      = flatMapE (lineRunE f cfg) (neLines (_list2str text)) :=
  phonemize_lineWise_norm f cfg (_list2str text)

/-- C2 (amended part): under a deterministic per-line stub engine, for
every worker count `N ≥ 1` the concatenation in chunk order of the
per-chunk pipeline outputs equals the single-pass output, provided the
input is a list, or a string equal to its own whitespace strip. -/
theorem chunk_invariance (f : List Char → List Char) (cfg : Cfg) (text : PyText)
    (n : Nat) (hn : 1 ≤ n) (hsafe : stripSafe text) :
    parallelOut (lineWise f) cfg text n = monoOut (lineWise f) cfg text := by
  rw [parallelOut_norm, monoOut_norm]
  suffices h : (flatMapL splitNl (_str2list text)).filter (fun l => l != [])
      = neLines (_list2str text) by rw [h]
  cases text with
  | lst l =>
    cases l with
    | nil => simp [_str2list, _list2str, neLines, flatMapL, pyJoin, splitNl, keepB]
    | cons x t =>
      show _ = (splitNl (pyJoin ['\n'] (x :: t))).filter _
      rw [splitNl_pyJoin _ (by simp)]
      rfl
  | str s0 =>
    have hs : pyStrip s0 = s0 := hsafe
    show (flatMapL splitNl (splitNl (pyStrip s0))).filter _
        = (splitNl s0).filter _
    rw [hs]
    rw [flatMapL_singleton splitNl (splitNl s0)
      (fun x hx => splitNl_eq_single x (mem_splitNl_no_nl s0 x hx))]

/-- C2 (counterexample): with the deterministic per-line stub engine
`engX` and the string input `" a"` (leading space), two workers produce a
different output than the single pass: the parallel path strips the string
before chunking, the single pass does not. -/
theorem chunk_invariance_counterexample :
    parallelOut (lineWise engX) defaultCfg (.str (' ' :: ['a'])) 2
      ≠ monoOut (lineWise engX) defaultCfg (.str (' ' :: ['a'])) := by
  intro hcontra
  have h1 : parallelOut (lineWise engX) defaultCfg (.str (' ' :: ['a'])) 2
      = Except.ok [['y', '-', '|', ' ']] := rfl
  have h2 : monoOut (lineWise engX) defaultCfg (.str (' ' :: ['a']))
      = Except.ok [['x', '-', '|', ' ']] := rfl
  rw [h1, h2] at hcontra
  exact absurd (Except.ok.inj hcontra) (by decide)

/-- C2 (witness): the amended chunk invariance at a concrete list input
with two workers. -/
theorem chunk_invariance_witness :
    parallelOut (lineWise engX) defaultCfg (.lst [['a'], ['b'], ['c']]) 2
      = monoOut (lineWise engX) defaultCfg (.lst [['a'], ['b'], ['c']]) :=
  chunk_invariance engX defaultCfg (.lst [['a'], ['b'], ['c']]) 2
    (by decide) trivial

/-- C1: for every per-line stub engine, instance state and worker count
`n ≥ 1`, a successful `phonemize` call returns a value of the same
container shape as its input — a string input yields the newline join of
the processed entries, a list input yields the list of entries — and the
entries are the per-line pipeline outputs of the processed input lines,
concatenated in original order. -/
theorem phonemize_shape (f : List Char → List Char) (cfg : Cfg) (st : PhState)
    (text : PyText) (n : Nat) (r : PyText) (st' : PhState) (evs : List LogEv)
    (hn : 1 ≤ n)
    (h : phonemize (lineWise f) cfg st text n = .ok ((r, st'), evs)) :
    ∃ out, flatMapE (lineRunE f cfg) (processedLines text n) = .ok out ∧
      (∀ s0, text = .str s0 → r = .str (pyJoin ['\n'] out)) ∧
      (∀ ls, text = .lst ls → r = .lst out) := by
  simp only [phonemize] at h
  split at h
  · exact absurd h (by simp)
  · split at h
    · -- njobs = 1
      rename_i hn1
      cases hm : _phonemize (lineWise f) cfg (_list2str text) with
      | error e => rw [hm] at h; exact absurd h (by simp)
      | ok out0 =>
        rw [hm] at h
        simp only [Except.ok.injEq, Prod.mk.injEq] at h
        obtain ⟨⟨hr, hst⟩, hevs⟩ := h
        refine ⟨out0, ?_, ?_, ?_⟩
        · rw [show processedLines text n
              = neLines (_list2str text) by simp [processedLines, hn1, neLines]]
          rw [← phonemize_lineWise_norm]
          exact hm
        · intro s0 hts
          subst hts
          rw [← hr]
          rfl
        · intro ls hts
          subst hts
          rw [← hr]
          rfl
    · -- njobs ≠ 1: parallel path
      rename_i hn1
      split at h
      · exact absurd h (by simp)
      · split at h
        · exact absurd h (by simp)
        · cases hm : mapME (_phonemize (lineWise f) cfg) (_chunks text n) with
          | error e => rw [hm] at h; exact absurd h (by simp)
          | ok outs =>
            rw [hm] at h
            simp only [Except.ok.injEq, Prod.mk.injEq] at h
            obtain ⟨⟨hr, hst⟩, hevs⟩ := h
            refine ⟨flattenL outs, ?_, ?_, ?_⟩
            · rw [show processedLines text n
                  = (flatMapL splitNl (_str2list text)).filter
                      (fun l => l != []) by simp [processedLines, hn1]]
              rw [← parallelOut_norm (n := n)]
              rw [show parallelOut (lineWise f) cfg text n
                  = exFlatten (mapME (_phonemize (lineWise f) cfg)
                      (_chunks text n)) from rfl, hm]
              rfl
            · intro s0 hts
              subst hts
              rw [← hr]
              rfl
            · intro ls hts
              subst hts
              rw [← hr]
              rfl

/-- C1 (witness): the shape theorem applied to the string input `"a"` with
one job, the stub engine `engX` and no logger. -/
theorem phonemize_shape_witness :
    ∃ out, flatMapE (lineRunE engX defaultCfg) (processedLines (.str ['a']) 1)
        = .ok out ∧
      (∀ s0, (PyText.str ['a'] : PyText) = .str s0 →
        (PyText.str ['y', '-', '|', ' '] : PyText) = .str (pyJoin ['\n'] out)) ∧
      (∀ ls, (PyText.str ['a'] : PyText) = .lst ls →
        (PyText.str ['y', '-', '|', ' '] : PyText) = .lst out) :=
  phonemize_shape engX defaultCfg ⟨false⟩ (.str ['a']) 1
    (.str ['y', '-', '|', ' ']) ⟨false⟩ [] (by decide) rfl

/-- C5 (amended part): every entry of a successful pipeline result has a
nonempty whitespace strip — a line whose result strips to the empty string
contributes no entry. -/
theorem phonemize_entries_not_blank (proc : List Char → List Char) (cfg : Cfg)
    (s : List Char) (out : List (List Char))
    (h : _phonemize proc cfg s = .ok out) : ∀ e ∈ out, pyStrip e ≠ [] := by
  unfold _phonemize at h
  cases hp : _postprocess cfg (proc (_preprocess s)) with
  | error e => rw [hp] at h; exact absurd h (by simp [withFilter])
  | ok c =>
    rw [hp] at h
    simp only [withFilter, Except.ok.injEq] at h
    subst h
    intro e he
    have := List.of_mem_filter he
    simpa using this

/-- C5 (witness): the no-blank-entry theorem applied to a concrete run. -/
theorem phonemize_entries_not_blank_witness :
    pyStrip ['y', '-', '|', ' '] ≠ [] :=
  phonemize_entries_not_blank (lineWise engX) defaultCfg ['a']
    [['y', '-', '|', ' ']] rfl ['y', '-', '|', ' '] (by decide)

/-- C5 (counterexample): a surviving pipeline entry is returned with its
surrounding whitespace — it is not trimmed, only tested for emptiness. -/
theorem trimmed_result_counterexample :
    _phonemize (lineWise engX) defaultCfg ['a'] = .ok [['y', '-', '|', ' ']] ∧
      pyStrip ['y', '-', '|', ' '] ≠ ['y', '-', '|', ' '] :=
  ⟨rfl, by decide⟩

/-- C9: when a kept raw output line fails to parse, `_phonemize` raises a
structural-parse error and the enclosing `phonemize` call propagates it,
returning no partial result list. -/
theorem malformed_line_fails (proc : List Char → List Char) (cfg : Cfg)
    (s l : List Char) (e : Err)
    (hmem : l ∈ (splitNl (proc (_preprocess s))).filter keepB)
    (hparse : parseE l = .error e) :
    (∃ e₁, _phonemize proc cfg s = .error e₁) ∧
      ∃ e₂, phonemize proc cfg ⟨false⟩ (.str s) 1 = .error e₂ := by
  have hline : _postprocess_line cfg l = .error e := by
    unfold _postprocess_line; rw [hparse]
  obtain ⟨e₁, he₁⟩ :=
    mapME_error_of_mem (_postprocess_line cfg) _ l hmem e hline
  have hph : _phonemize proc cfg s = .error e₁ := by
    unfold _phonemize
    rw [show _postprocess cfg (proc (_preprocess s))
        = mapME (_postprocess_line cfg)
            ((splitNl (proc (_preprocess s))).filter keepB) from rfl, he₁]
    rfl
  exact ⟨⟨e₁, hph⟩, ⟨e₁, by simp [phonemize, isLst, _list2str, hph]⟩⟩

/-- C9 (witness): a constant engine emitting the unbalanced line `"((a"`
makes the pipeline and the enclosing call fail. -/
theorem malformed_line_fails_witness :
    (∃ e₁, _phonemize (fun _ => '(' :: '(' :: ['a']) defaultCfg ['x']
        = .error e₁) ∧
      ∃ e₂, phonemize (fun _ => '(' :: '(' :: ['a']) defaultCfg ⟨false⟩
        (.str ['x']) 1 = .error e₂ :=
  malformed_line_fails (fun _ => '(' :: '(' :: ['a']) defaultCfg ['x']
    ('(' :: '(' :: ['a']) .indexErr (by decide) rfl

/-- C8: a raw output line that is empty or exactly the sentinel marker
`(nil nil nil)` contributes zero entries to the postprocessed output. -/
theorem sentinel_drop (cfg : Cfg) (blob : List Char) (l₁ l₂ : List (List Char))
    (bad : List Char) (hsplit : splitNl blob = l₁ ++ bad :: l₂)
    (hbad : bad = [] ∨ bad = sentinel) :
    _postprocess cfg blob
      = mapME (_postprocess_line cfg) ((l₁ ++ l₂).filter keepB) := by
  unfold _postprocess
  rw [hsplit, List.filter_append, List.filter_append]
  have hkb : keepB bad = false := by
    rcases hbad with rfl | rfl <;> simp [keepB]
  rw [show (bad :: l₂).filter keepB = l₂.filter keepB by
    simp [List.filter_cons, hkb]]

/-- C8 (witness): the raw output consisting of the sentinel line alone
produces no entries. -/
theorem sentinel_drop_witness : _postprocess defaultCfg sentinel = .ok [] :=
  (sentinel_drop defaultCfg sentinel [] [] sentinel rfl (Or.inr rfl)).trans rfl

/-- C3: evaluating the chunking at five lines with two jobs.  The computed
size is `max(1, 5/2) = 2` and the code returns three chunks of 2, 2 and 1
lines: every chunk has exactly `size` lines except the last, which holds
only the single leftover line — not the three remaining lines the
docstring («the last chunk can be longer», «return a list of `n`
strings») and the claim describe. -/
theorem chunks_code_eval :
    chunkSlices [['a'], ['b'], ['c'], ['d'], ['e']] 2
        = [[['a'], ['b']], [['c'], ['d']], [['e']]] ∧
      _chunks (.lst [['a'], ['b'], ['c'], ['d'], ['e']]) 2
        = [['a', '\n', 'b'], ['c', '\n', 'd'], ['e']] ∧
      [[['a'], ['b']], [['c'], ['d']], [['e']]].length ≠ 2 :=
  ⟨rfl, rfl, by decide⟩

/-- C6: a word whose flattened string is empty is excluded entirely from
the word-level join — removing it from the parsed line leaves the
flattened line unchanged, so it contributes neither text nor a word
separator. -/
theorem empty_word_excluded (cfg : Cfg) (ws₁ ws₂ : List Sexp) (w : Sexp)
    (hw : _postprocess_word cfg w = .ok []) :
    lineFlattenE cfg (.list (ws₁ ++ w :: ws₂))
      = lineFlattenE cfg (.list (ws₁ ++ ws₂)) := by
  unfold lineFlattenE
  rw [show sexpIter (Sexp.list (ws₁ ++ w :: ws₂)) = ws₁ ++ w :: ws₂ from rfl,
    show sexpIter (Sexp.list (ws₁ ++ ws₂)) = ws₁ ++ ws₂ from rfl]
  rw [mapME_append, mapME_append]
  cases h₁ : mapME (_postprocess_word cfg) ws₁ with
  | error e => rfl
  | ok b₁ =>
    have hmid : mapME (_postprocess_word cfg) (w :: ws₂)
        = match mapME (_postprocess_word cfg) ws₂ with
          | .error e => .error e
          | .ok bs => .ok (([] : List Char) :: bs) := by
      cases h₂ : mapME (_postprocess_word cfg) ws₂ with
      | error e => simp [mapME, hw, h₂]
      | ok b₂ => simp [mapME, hw, h₂]
    rw [hmid]
    cases h₂ : mapME (_postprocess_word cfg) ws₂ with
    | error e => rfl
    | ok b₂ => simp [List.filter_append, List.filter_cons]

/-- C6 (witness): a word with no syllables flattens to the empty string
under `strip_separator` and is excluded from a concrete line. -/
theorem empty_word_excluded_witness :
    lineFlattenE ⟨defaultSeparator, true⟩
        (.list ([WordS.toSexp ⟨.atom ['w'],
          [⟨.atom ['s'], [['a']]⟩]⟩] ++ Sexp.list [.atom ['t']] :: []))
      = lineFlattenE ⟨defaultSeparator, true⟩
        (.list ([WordS.toSexp ⟨.atom ['w'],
          [⟨.atom ['s'], [['a']]⟩]⟩] ++ [])) :=
  empty_word_excluded ⟨defaultSeparator, true⟩
    [WordS.toSexp ⟨.atom ['w'], [⟨.atom ['s'], [['a']]⟩]⟩] []
    (Sexp.list [.atom ['t']]) rfl

/-- C7: every sanitized line is the cleaned line surrounded by exactly one
double quote on each side, and the cleaned interior contains no double
quote, no open parenthesis and no close parenthesis. -/
theorem sanitizer_safe (l : List Char) :
    sanLine l = '"' :: (_cleaned l ++ ['"']) ∧
      '"' ∉ _cleaned l ∧ '(' ∉ _cleaned l ∧ ')' ∉ _cleaned l := by
  refine ⟨rfl, ?_, ?_, ?_⟩
  · intro hmem
    have h3 := List.mem_of_mem_filter hmem
    obtain ⟨c, hc, heq⟩ := List.mem_map.mp h3
    by_cases hq : c = '"'
    · rw [if_pos hq] at heq; exact absurd heq (by decide)
    · rw [if_neg hq] at heq; exact hq heq
  · intro hmem
    have := List.of_mem_filter hmem
    simp at this
  · intro hmem
    have := List.of_mem_filter hmem
    simp at this

/-- C10: a `phonemize` call with `njobs > 1` and a logger present returns
with the logger permanently disabled — every later call with `njobs = 1`
on the resulting state emits no log event and keeps the logger disabled —
and a call with `njobs > 1` on an instance without a logger fails with the
attribute error raised by `None.debug` before any chunk is dispatched
(the error is the same for every engine). -/
theorem logger_side_effect :
    (∀ (proc : List Char → List Char) (cfg : Cfg) (text : PyText) (n : Nat)
      (r : PyText) (st' : PhState) (evs : List LogEv), 2 ≤ n →
      phonemize proc cfg ⟨true⟩ text n = .ok ((r, st'), evs) →
      st' = ⟨false⟩ ∧
        ∀ (proc₂ : List Char → List Char) (cfg₂ : Cfg) (text₂ : PyText)
          (r₂ : PyText) (st₂ : PhState) (evs₂ : List LogEv),
          phonemize proc₂ cfg₂ st' text₂ 1 = .ok ((r₂, st₂), evs₂) →
          evs₂ = [] ∧ st₂ = ⟨false⟩) ∧
    ∀ (proc : List Char → List Char) (cfg : Cfg) (text : PyText) (n : Nat),
      2 ≤ n → phonemize proc cfg ⟨false⟩ text n = .error .attrErr := by
  constructor
  · intro proc cfg text n r st' evs hn h
    simp only [phonemize] at h
    split at h
    · exact absurd h (by simp)
    · split at h
      · rename_i hn1; omega
      · split at h
        · rename_i hfalse; simp at hfalse
        · split at h
          · rename_i hzero; omega
          · cases hm : mapME (_phonemize proc cfg) (_chunks text n) with
            | error e => rw [hm] at h; exact absurd h (by simp)
            | ok outs =>
              rw [hm] at h
              simp only [Except.ok.injEq, Prod.mk.injEq] at h
              obtain ⟨⟨hr, hst⟩, hevs⟩ := h
              refine ⟨hst.symm, ?_⟩
              intro proc₂ cfg₂ text₂ r₂ st₂ evs₂ h₂
              rw [← hst] at h₂
              simp only [phonemize] at h₂
              cases hm₂ : _phonemize proc₂ cfg₂ (_list2str text₂) with
              | error e => simp [hm₂] at h₂
              | ok out₂ =>
                simp [hm₂] at h₂
                exact ⟨h₂.2, h₂.1.2.symm⟩
  · intro proc cfg text n hn
    have hn1 : ¬n = 1 := by omega
    have hn0 : ¬n = 0 := by omega
    simp [phonemize, hn1, hn0]

/-- C10 (witness): a concrete run with two jobs and a logger leaves the
logger disabled and a later one-job call emits nothing; without a logger a
two-job call raises the attribute error. -/
theorem logger_side_effect_witness :
    (([] : List LogEv) = [] ∧ (PhState.mk false) = ⟨false⟩) ∧
      phonemize (lineWise engX) defaultCfg ⟨false⟩ (.str ['a']) 2
        = .error .attrErr :=
  ⟨(logger_side_effect.1 (lineWise engX) defaultCfg (.str ['a']) 2
      (.str ['y', '-', '|', ' ']) ⟨false⟩ [.info, .debug] (by decide) rfl).2
      (lineWise engX) defaultCfg (.str ['a']) (.str ['y', '-', '|', ' '])
      ⟨false⟩ [] rfl,
    logger_side_effect.2 (lineWise engX) defaultCfg (.str ['a']) 2 (by decide)⟩

theorem syll_flat_stripped (cfg : Cfg) (hstrip : cfg.strip_separator = true)
    (s : SyllS) (hlbl : ∀ p ∈ s.phones, stripQ p ≠ []) :
    _postprocess_syll cfg s.toSexp
      = .ok (pyJoin cfg.separator.phone (s.phones.map stripQ)) := by
  unfold _postprocess_syll
  rw [show sexpTail s.toSexp = s.phones.map mkPhone by
    simp [SyllS.toSexp, sexpTail]]
  rw [mapME_map]
  rw [mapME_ok_of (fun a => phoneLabel (mkPhone a)) stripQ s.phones
    (fun p _ => rfl)]
  have hfl : List.filter (fun o => o != []) (List.map stripQ s.phones)
      = List.map stripQ s.phones :=
    List.filter_eq_self.mpr (fun a ha => by
      obtain ⟨p, hp, rfl⟩ := List.mem_map.mp ha
      simpa using hlbl p hp)
  simp [hfl, hstrip]

theorem syll_flat_trailing (cfg : Cfg) (hstrip : cfg.strip_separator = false)
    (s : SyllS) (hne : s.phones ≠ [])
    (hlbl : ∀ p ∈ s.phones, stripQ p ≠ []) :
    _postprocess_syll cfg s.toSexp
      = .ok (flatMapL (fun p => stripQ p ++ cfg.separator.phone) s.phones) := by
  unfold _postprocess_syll
  rw [show sexpTail s.toSexp = s.phones.map mkPhone by
    simp [SyllS.toSexp, sexpTail]]
  rw [mapME_map]
  rw [mapME_ok_of (fun a => phoneLabel (mkPhone a)) stripQ s.phones
    (fun p _ => rfl)]
  have hfl : List.filter (fun o => o != []) (List.map stripQ s.phones)
      = List.map stripQ s.phones :=
    List.filter_eq_self.mpr (fun a ha => by
      obtain ⟨p, hp, rfl⟩ := List.mem_map.mp ha
      simpa using hlbl p hp)
  have hmapne : s.phones.map stripQ ≠ [] := by
    intro hmap
    exact hne (List.map_eq_nil_iff.mp hmap)
  simp only [hfl, hstrip, Bool.false_eq_true, if_false]
  rw [pyJoin_append_sep _ _ hmapne, flatMapL_map]

theorem pyJoin_map_stripQ_ne_nil (sep : List Char) (s : SyllS)
    (hne : s.phones ≠ []) (hlbl : ∀ p ∈ s.phones, stripQ p ≠ []) :
    pyJoin sep (s.phones.map stripQ) ≠ [] := by
  obtain ⟨p, rest, hcons⟩ := List.exists_cons_of_ne_nil hne
  rw [hcons, List.map_cons]
  exact pyJoin_ne_nil_head _ _ _ (hlbl p (hcons ▸ List.mem_cons_self p rest))

theorem flat_trailing_ne_nil (sep : List Char) (s : SyllS)
    (hne : s.phones ≠ []) (hlbl : ∀ p ∈ s.phones, stripQ p ≠ []) :
    flatMapL (fun p => stripQ p ++ sep) s.phones ≠ [] := by
  obtain ⟨p, rest, hcons⟩ := List.exists_cons_of_ne_nil hne
  rw [hcons]
  have := hlbl p (hcons ▸ List.mem_cons_self p rest)
  simp only [flatMapL]
  intro hfl
  rcases List.append_eq_nil.mp hfl with ⟨h1, _⟩
  exact this (List.append_eq_nil.mp h1).1

theorem word_flat_stripped (cfg : Cfg) (hstrip : cfg.strip_separator = true)
    (w : WordS)
    (hl : ∀ s ∈ w.sylls, s.phones ≠ [] ∧ ∀ p ∈ s.phones, stripQ p ≠ []) :
    _postprocess_word cfg w.toSexp
      = .ok (pyJoin cfg.separator.syllable (w.sylls.map (fun s =>
          pyJoin cfg.separator.phone (s.phones.map stripQ)))) := by
  unfold _postprocess_word
  rw [show sexpTail w.toSexp = w.sylls.map SyllS.toSexp by
    simp [WordS.toSexp, sexpTail]]
  rw [mapME_map]
  rw [mapME_ok_of _
    (fun s => pyJoin cfg.separator.phone (s.phones.map stripQ)) w.sylls
    (fun s hs => syll_flat_stripped cfg hstrip s (hl s hs).2)]
  simp [hstrip]

theorem word_flat_trailing (cfg : Cfg) (hstrip : cfg.strip_separator = false)
    (w : WordS) (hsne : w.sylls ≠ [])
    (hl : ∀ s ∈ w.sylls, s.phones ≠ [] ∧ ∀ p ∈ s.phones, stripQ p ≠ []) :
    _postprocess_word cfg w.toSexp
      = .ok (flatMapL (fun s =>
          flatMapL (fun p => stripQ p ++ cfg.separator.phone) s.phones
            ++ cfg.separator.syllable) w.sylls) := by
  unfold _postprocess_word
  rw [show sexpTail w.toSexp = w.sylls.map SyllS.toSexp by
    simp [WordS.toSexp, sexpTail]]
  rw [mapME_map]
  rw [mapME_ok_of _
    (fun s => flatMapL (fun p => stripQ p ++ cfg.separator.phone) s.phones)
    w.sylls
    (fun s hs => syll_flat_trailing cfg hstrip s (hl s hs).1 (hl s hs).2)]
  have hmapne : w.sylls.map
      (fun s => flatMapL (fun p => stripQ p ++ cfg.separator.phone) s.phones)
        ≠ [] := by
    intro hmap
    exact hsne (List.map_eq_nil_iff.mp hmap)
  simp only [hstrip, Bool.false_eq_true, if_false]
  rw [pyJoin_append_sep _ _ hmapne, flatMapL_map]

theorem word_flat_stripped_ne_nil (cfg : Cfg) (w : WordS)
    (hsne : w.sylls ≠ [])
    (hl : ∀ s ∈ w.sylls, s.phones ≠ [] ∧ ∀ p ∈ s.phones, stripQ p ≠ []) :
    pyJoin cfg.separator.syllable (w.sylls.map (fun s =>
      pyJoin cfg.separator.phone (s.phones.map stripQ))) ≠ [] := by
  obtain ⟨s, rest, hcons⟩ := List.exists_cons_of_ne_nil hsne
  rw [hcons, List.map_cons]
  have hs := hl s (hcons ▸ List.mem_cons_self s rest)
  exact pyJoin_ne_nil_head _ _ _
    (pyJoin_map_stripQ_ne_nil cfg.separator.phone s hs.1 hs.2)

theorem word_flat_trailing_ne_nil (cfg : Cfg) (w : WordS)
    (hsne : w.sylls ≠ [])
    (hl : ∀ s ∈ w.sylls, s.phones ≠ [] ∧ ∀ p ∈ s.phones, stripQ p ≠ []) :
    flatMapL (fun s =>
      flatMapL (fun p => stripQ p ++ cfg.separator.phone) s.phones
        ++ cfg.separator.syllable) w.sylls ≠ [] := by
  obtain ⟨s, rest, hcons⟩ := List.exists_cons_of_ne_nil hsne
  rw [hcons]
  have hs := hl s (hcons ▸ List.mem_cons_self s rest)
  simp only [flatMapL]
  intro hfl
  rcases List.append_eq_nil.mp hfl with ⟨h1, _⟩
  exact flat_trailing_ne_nil cfg.separator.phone s hs.1 hs.2
    (List.append_eq_nil.mp h1).1

/-- C4: flattening a well-formed parsed line places one phone separator
after every phone, one syllable separator after every syllable and one word
separator after every word when `strip_separator` is false, and performs
plain joins appending no trailing separator at any level when
`strip_separator` is true. -/
theorem separator_trailing (sep : Separator) (ws : List WordS)
    (hwf : WFline ws) :
    lineFlattenE ⟨sep, false⟩ (lineToSexp ws) = .ok (specFlatTrailing sep ws) ∧
      lineFlattenE ⟨sep, true⟩ (lineToSexp ws)
        = .ok (specFlatStripped sep ws) := by
  obtain ⟨hpos, hws⟩ := hwf
  have hwsne : ws ≠ [] := List.length_pos.mp hpos
  constructor
  · unfold lineFlattenE
    rw [show sexpIter (lineToSexp ws) = ws.map WordS.toSexp from rfl]
    rw [mapME_map]
    rw [mapME_ok_of (fun a => _postprocess_word ⟨sep, false⟩ (WordS.toSexp a))
      (fun w => flatMapL (fun s =>
        flatMapL (fun p => stripQ p ++ sep.phone) s.phones ++ sep.syllable)
        w.sylls) ws
      (fun w hw => word_flat_trailing ⟨sep, false⟩ rfl w
        (List.length_pos.mp (hws w hw).1)
        (fun s hs => ⟨List.length_pos.mp ((hws w hw).2 s hs).1,
          ((hws w hw).2 s hs).2⟩))]
    have hfl : (ws.map (fun w => flatMapL (fun s =>
        flatMapL (fun p => stripQ p ++ sep.phone) s.phones ++ sep.syllable)
        w.sylls)).filter (fun w => w != [])
        = ws.map (fun w => flatMapL (fun s =>
            flatMapL (fun p => stripQ p ++ sep.phone) s.phones
              ++ sep.syllable) w.sylls) :=
      List.filter_eq_self.mpr (fun a ha => by
        obtain ⟨w, hw, rfl⟩ := List.mem_map.mp ha
        simpa using word_flat_trailing_ne_nil ⟨sep, false⟩ w
          (List.length_pos.mp (hws w hw).1)
          (fun s hs => ⟨List.length_pos.mp ((hws w hw).2 s hs).1,
            ((hws w hw).2 s hs).2⟩))
    have hmapne : ws.map (fun w => flatMapL (fun s =>
        flatMapL (fun p => stripQ p ++ sep.phone) s.phones ++ sep.syllable)
        w.sylls) ≠ [] := by
      intro hmap
      exact hwsne (List.map_eq_nil_iff.mp hmap)
    simp only [hfl]
    rw [if_neg (by decide : ¬(false = true))]
    rw [pyJoin_append_sep _ _ hmapne, flatMapL_map]
    rfl
  · unfold lineFlattenE
    rw [show sexpIter (lineToSexp ws) = ws.map WordS.toSexp from rfl]
    rw [mapME_map]
    rw [mapME_ok_of (fun a => _postprocess_word ⟨sep, true⟩ (WordS.toSexp a))
      (fun w => pyJoin sep.syllable (w.sylls.map (fun s =>
        pyJoin sep.phone (s.phones.map stripQ)))) ws
      (fun w hw => word_flat_stripped ⟨sep, true⟩ rfl w
        (fun s hs => ⟨List.length_pos.mp ((hws w hw).2 s hs).1,
          ((hws w hw).2 s hs).2⟩))]
    have hfl : (ws.map (fun w => pyJoin sep.syllable (w.sylls.map (fun s =>
        pyJoin sep.phone (s.phones.map stripQ))))).filter (fun w => w != [])
        = ws.map (fun w => pyJoin sep.syllable (w.sylls.map (fun s =>
            pyJoin sep.phone (s.phones.map stripQ)))) :=
      List.filter_eq_self.mpr (fun a ha => by
        obtain ⟨w, hw, rfl⟩ := List.mem_map.mp ha
        simpa using word_flat_stripped_ne_nil ⟨sep, true⟩ w
          (List.length_pos.mp (hws w hw).1)
          (fun s hs => ⟨List.length_pos.mp ((hws w hw).2 s hs).1,
            ((hws w hw).2 s hs).2⟩))
    simp only [hfl]
    rfl

/-- C4 (witness): the flattening shapes at a concrete one-word line with
one syllable of two phones. -/
theorem separator_trailing_witness :
    lineFlattenE ⟨defaultSeparator, false⟩
        (lineToSexp [⟨.atom ['w'], [⟨.atom ['s'], [['a'], ['b']]⟩]⟩])
      = .ok (specFlatTrailing defaultSeparator
          [⟨.atom ['w'], [⟨.atom ['s'], [['a'], ['b']]⟩]⟩]) ∧
      lineFlattenE ⟨defaultSeparator, true⟩
        (lineToSexp [⟨.atom ['w'], [⟨.atom ['s'], [['a'], ['b']]⟩]⟩])
      = .ok (specFlatStripped defaultSeparator
          [⟨.atom ['w'], [⟨.atom ['s'], [['a'], ['b']]⟩]⟩]) :=
  separator_trailing defaultSeparator
    [⟨.atom ['w'], [⟨.atom ['s'], [['a'], ['b']]⟩]⟩]
    (by unfold WFline; decide)

end Phon
